import Mathlib

/-!
# Verification of the `binserde` fixed-layout binary codec

The repository (`src/src/lib.rs`) defines a binary serialization discipline
via `coder()`: big-endian byte order, fixed-width integer encoding (no
varints), and tolerance of trailing bytes on deserialize.  The blanket
`impl BinSerDe for T` provides `bser` (serialize to a fresh buffer),
`bser_into` (serialize into a caller-supplied `Write` destination, e.g. a
fixed-size `&mut [u8]`), and `bdes` (deserialize from a byte slice).

We embed the codec shallowly.  A record is a list of fields, each a pair
`(w, v)` of a byte width and a field value; a record's layout is its list
of widths.  Encoding concatenates the fields' fixed-width big-endian byte
strings in declared order; decoding reads the fields back from the front
of the buffer, ignoring anything left over.
-/

namespace BinSerde

/-- Error returned when a deserialize operation fails
(mirrors `DeserializeError` in `src/src/lib.rs`). -/
inductive DeserializeError
  | mk
deriving DecidableEq, Repr

/-- Error returned when a serialize operation fails
(mirrors `SerializeError` in `src/src/lib.rs`). -/
inductive SerializeError
  | mk
deriving DecidableEq, Repr

/-- Modelled from the spec: the byte-level integer encoder of the external
`bincode` crate (not present under `src/`), as configured by `coder()` in
`src/src/lib.rs`: fixed-width and big-endian.  `beBytes w v` is the `w`-byte
big-endian representation of `v`: the most significant byte first, the byte
`v % 256` last. -/
def beBytes : Nat → Nat → List Nat
  | 0, _ => []
  | w + 1, v => beBytes w (v / 256) ++ [v % 256]

/-- Modelled from the spec: the byte-level integer decoder of the external
`bincode` crate as configured by `coder()`: take exactly `w` bytes from the
front of the buffer, interpret them as a big-endian fixed-width integer, and
return the remaining bytes; fail if fewer than `w` bytes are available. -/
def readField (w : Nat) (buf : List Nat) : Option (Nat × List Nat) :=
  if w ≤ buf.length then
    some ((buf.take w).foldl (fun acc b => acc * 256 + b) 0, buf.drop w)
  else
    none

/-- Modelled from the spec: `bincode` serialization of a struct with derived
`Serialize` writes each field in declared order with no tags, padding or
length prefixes.  `encodeFields` concatenates the fields' fixed-width
big-endian encodings. -/
def encodeFields : List (Nat × Nat) → List Nat
  | [] => []
  | (w, v) :: fs => beBytes w v ++ encodeFields fs

/-- Modelled from the spec: `bincode` deserialization of a struct reads each
field in declared order from the front of the buffer, threading the unread
remainder. -/
def readFields : List Nat → List Nat → Option (List Nat × List Nat)
  | [], buf => some ([], buf)
  | w :: ws, buf =>
    (readField w buf).bind fun p =>
      (readFields ws p.2).map fun q => (p.1 :: q.1, q.2)

/-- `bser` from `src/src/lib.rs`: serialize into a new buffer.  For records
of fixed-width integer fields, writing into a growable buffer cannot fail,
so the result is always `ok` with the concatenated field encodings. -/
def bser (fields : List (Nat × Nat)) : Except SerializeError (List Nat) :=
  Except.ok (encodeFields fields)

/-- `bdes` from `src/src/lib.rs`: deserialize a record with the given field
layout from the front of `buf`.  The `coder()` configuration allows trailing
bytes, so whatever `readFields` leaves unread is discarded without error. -/
def bdes (widths : List Nat) (buf : List Nat) :
    Except DeserializeError (List Nat) :=
  match readFields widths buf with
  | none => Except.error DeserializeError.mk
  | some (vs, _) => Except.ok vs

/-- A destination for `bser_into`: a fixed-capacity byte region, as when the
caller passes `&mut [u8]` (which implements `Write`).  `written` holds the
bytes accepted so far. -/
structure SliceWriter where
  written : List Nat
  capacity : Nat
deriving DecidableEq, Repr

/-- Modelled from the spec: `Write::write_all` on a `&mut [u8]` destination
(standard library code, not under `src/`): it copies as many bytes as fit
and succeeds only if all of them fit; bytes that were copied before the
destination filled up are kept, not rolled back. -/
def writeAll (sw : SliceWriter) (bytes : List Nat) :
    SliceWriter × Except SerializeError Unit :=
  if sw.written.length + bytes.length ≤ sw.capacity then
    (⟨sw.written ++ bytes, sw.capacity⟩, Except.ok ())
  else
    (⟨sw.written ++ bytes.take (sw.capacity - sw.written.length),
      sw.capacity⟩, Except.error SerializeError.mk)

/-- `bser_into` from `src/src/lib.rs`: write each field's fixed-width
big-endian encoding, in declared order, into the destination; stop at the
first failing write and surface `SerializeError`. -/
def bser_into : List (Nat × Nat) → SliceWriter →
    SliceWriter × Except SerializeError Unit
  | [], sw => (sw, Except.ok ())
  | (w, v) :: fs, sw =>
    let r := writeAll sw (beBytes w v)
    match r.2 with
    | Except.ok _ => bser_into fs r.1
    | Except.error e => (r.1, Except.error e)

/-! ## Basic lemmas about the encoder -/

/-- A field's encoding occupies exactly its declared width, whatever its
value. -/
theorem beBytes_length (w v : Nat) : (beBytes w v).length = w := by
  induction w generalizing v with
  | zero => rfl
  | succ w ih => simp [beBytes, ih]

/-- Folding the big-endian interpretation over a field's encoding recovers
the field's value modulo its width. -/
theorem foldl_beBytes (w : Nat) : ∀ v acc : Nat,
    (beBytes w v).foldl (fun acc b => acc * 256 + b) acc
      = acc * 256 ^ w + v % 256 ^ w := by
  induction w with
  | zero => intro v acc; simp [beBytes, Nat.mod_one]
  | succ w ih =>
    intro v acc
    have h256 : (256 : Nat) ^ (w + 1) = 256 * 256 ^ w := by
      rw [pow_succ]; ring
    rw [beBytes, List.foldl_append, ih (v / 256) acc]
    simp only [List.foldl_cons, List.foldl_nil]
    rw [h256, Nat.mod_mul]
    ring

/-- `readField` on a buffer holding at least `w` bytes. -/
theorem readField_eq_of_le (w : Nat) (buf : List Nat) (hw : w ≤ buf.length) :
    readField w buf
      = some ((buf.take w).foldl (fun acc b => acc * 256 + b) 0, buf.drop w) := by
  unfold readField
  rw [if_pos hw]

/-- `readField` fails exactly when the buffer is shorter than the field. -/
theorem readField_eq_none (w : Nat) (buf : List Nat) (hw : buf.length < w) :
    readField w buf = none := by
  unfold readField
  rw [if_neg (by omega)]

/-- Decoding a field from its own encoding (followed by any suffix) recovers
the value reduced modulo the field's range, leaving the suffix unread. -/
theorem readField_beBytes (w v : Nat) (rest : List Nat) :
    readField w (beBytes w v ++ rest) = some (v % 256 ^ w, rest) := by
  have hlen : (beBytes w v).length = w := beBytes_length w v
  rw [readField_eq_of_le _ _ (by simp [hlen]), List.take_left' hlen,
    List.drop_left' hlen, foldl_beBytes]
  simp

/-- Decoding a record from its own encoding (followed by any suffix)
recovers every field value, leaving the suffix unread. -/
theorem readFields_encodeFields (fields : List (Nat × Nat)) (rest : List Nat)
    (h : ∀ p ∈ fields, p.2 < 256 ^ p.1) :
    readFields (fields.map Prod.fst) (encodeFields fields ++ rest)
      = some (fields.map Prod.snd, rest) := by
  induction fields with
  | nil => simp [readFields, encodeFields]
  | cons p fs ih =>
    obtain ⟨w, v⟩ := p
    have hv : v < 256 ^ w := h (w, v) (List.mem_cons_self _ _)
    simp only [List.map_cons, encodeFields, readFields, List.append_assoc,
      readField_beBytes, Nat.mod_eq_of_lt hv, Option.some_bind]
    rw [ih (fun q hq => h q (List.mem_cons_of_mem _ hq))]
    rfl

/-- Appending extra bytes to the input does not disturb a successful
field read: the value is unchanged and the extra bytes stay unread. -/
theorem readField_extend (w : Nat) (buf extra : List Nat) (v : Nat)
    (r : List Nat) (h : readField w buf = some (v, r)) :
    readField w (buf ++ extra) = some (v, r ++ extra) := by
  by_cases hw : w ≤ buf.length
  · rw [readField_eq_of_le _ _ hw] at h
    rw [readField_eq_of_le _ _ (by simp; omega),
      List.take_append_of_le_length hw, List.drop_append_of_le_length hw]
    injection h with h2
    injection h2 with hval hrest
    rw [hval, hrest]
  · rw [readField_eq_none _ _ (by omega)] at h
    exact absurd h (by simp)

/-- Appending extra bytes to the input does not disturb a successful
record read. -/
theorem readFields_extend (ws : List Nat) : ∀ (buf extra vs r : List Nat),
    readFields ws buf = some (vs, r) →
    readFields ws (buf ++ extra) = some (vs, r ++ extra) := by
  induction ws with
  | nil =>
    intro buf extra vs r h
    simp only [readFields] at h ⊢
    injection h with h2
    injection h2 with hvs hr
    rw [hvs, hr]
  | cons w ws ih =>
    intro buf extra vs r h
    simp only [readFields] at h ⊢
    cases hp : readField w buf with
    | none => rw [hp] at h; exact absurd h (by simp)
    | some p =>
      rw [hp] at h
      simp only [Option.some_bind] at h
      cases hq : readFields ws p.2 with
      | none => rw [hq] at h; exact absurd h (by simp)
      | some q =>
        rw [hq] at h
        simp only [Option.map_some'] at h
        rw [readField_extend w buf extra p.1 p.2 (by rw [hp]),
          Option.some_bind, ih p.2 extra q.1 q.2 hq, Option.map_some']
        injection h with h2
        injection h2 with hvs hr
        rw [← hvs, ← hr]

/-- A record read succeeds exactly when the buffer holds at least the sum
of the field widths. -/
theorem readFields_isSome (ws : List Nat) : ∀ buf : List Nat,
    (readFields ws buf).isSome ↔ ws.sum ≤ buf.length := by
  induction ws with
  | nil => intro buf; simp [readFields]
  | cons w ws ih =>
    intro buf
    simp only [readFields, List.sum_cons]
    by_cases hw : w ≤ buf.length
    · rw [readField_eq_of_le _ _ hw, Option.some_bind, Option.isSome_map']
      rw [ih (buf.drop w)]
      simp only [List.length_drop]
      omega
    · rw [readField_eq_none _ _ (by omega)]
      simp
      omega

/-- The first byte of a multi-byte encoding is the most significant byte
of the value (reduced to one byte). -/
theorem beBytes_head (w : Nat) : ∀ v : Nat,
    (beBytes (w + 1) v).head? = some (v / 256 ^ w % 256) := by
  induction w with
  | zero => intro v; simp [beBytes]
  | succ w ih =>
    intro v
    have hne : beBytes (w + 1) (v / 256) ≠ [] := by
      intro hcontra
      have := beBytes_length (w + 1) (v / 256)
      rw [hcontra] at this
      simp at this
    rw [show beBytes (w + 1 + 1) v
        = beBytes (w + 1) (v / 256) ++ [v % 256] from rfl]
    rw [List.head?_append_of_ne_nil _ hne, ih (v / 256),
      Nat.div_div_eq_div_mul]
    congr 2
    rw [pow_succ, Nat.mul_comm]

/-- How `bser_into` behaves on a destination that already holds `pre` and
has total capacity `c`: if the whole encoding fits it is appended and the
call succeeds; otherwise exactly the bytes up to capacity are appended and
the call fails with `SerializeError`. -/
theorem bser_into_spec (fields : List (Nat × Nat)) :
    ∀ (pre : List Nat) (c : Nat), pre.length ≤ c →
    bser_into fields ⟨pre, c⟩ =
      if pre.length + (encodeFields fields).length ≤ c then
        (⟨pre ++ encodeFields fields, c⟩, Except.ok ())
      else
        (⟨pre ++ (encodeFields fields).take (c - pre.length), c⟩,
          Except.error SerializeError.mk) := by
  induction fields with
  | nil =>
    intro pre c h
    rw [if_pos (by simpa [encodeFields] using h)]
    simp [bser_into, encodeFields]
  | cons p fs ih =>
    obtain ⟨w, v⟩ := p
    intro pre c h
    have hb : (beBytes w v).length = w := beBytes_length w v
    by_cases hfit : pre.length + w ≤ c
    · have step : writeAll ⟨pre, c⟩ (beBytes w v)
          = (⟨pre ++ beBytes w v, c⟩, Except.ok ()) := by
        unfold writeAll
        rw [if_pos (by simpa [hb] using hfit)]

      simp only [bser_into]
      rw [step]
      simp only []
      rw [ih (pre ++ beBytes w v) c (by simp [hb]; omega)]
      simp only [encodeFields, List.length_append, hb, List.append_assoc]
      split_ifs with h1 h2 h2
      · rfl
      · omega
      · omega
      · rw [List.take_append_eq_append_take,
          List.take_of_length_le (le_of_eq_of_le hb (by omega)), hb]
        have hidx : c - (pre.length + w) = c - pre.length - w := by omega
        rw [hidx]
    · have step : writeAll ⟨pre, c⟩ (beBytes w v)
          = (⟨pre ++ (beBytes w v).take (c - pre.length), c⟩,
             Except.error SerializeError.mk) := by
        unfold writeAll
        rw [if_neg (by simp [hb]; omega)]
      simp only [bser_into]
      rw [step]
      simp only []
      rw [if_neg (by simp [encodeFields, List.length_append, hb]; omega)]
      rw [show (encodeFields ((w, v) :: fs))
          = beBytes w v ++ encodeFields fs from rfl]
      rw [List.take_append_of_le_length (by omega)]

/-! ## Claim theorems -/

/-- C1.  For every representable record (each field value within its
declared width's range), `bser` succeeds, and `bdes` on the produced bytes
recovers the record exactly: `bdes` inverts `bser`. -/
theorem bdes_bser_roundtrip (fields : List (Nat × Nat))
    (h : ∀ p ∈ fields, p.2 < 256 ^ p.1) :
    ∃ bytes, bser fields = Except.ok bytes ∧
      bdes (fields.map Prod.fst) bytes
        = Except.ok (fields.map Prod.snd) := by
  refine ⟨encodeFields fields, rfl, ?_⟩
  unfold bdes
  have hr := readFields_encodeFields fields [] h
  rw [List.append_nil] at hr
  rw [hr]

/-- Witness for C1 at the record `{a: u8 = 7, b: u32 = 65536}`. -/
theorem bdes_bser_roundtrip_witness :
    ∃ bytes, bser [(1, 7), (4, 65536)] = Except.ok bytes ∧
      bdes [1, 4] bytes = Except.ok [7, 65536] := by
  have h := bdes_bser_roundtrip [(1, 7), (4, 65536)] (by decide)
  simpa using h

/-- C2.  Trailing tolerance: if `bdes` succeeds on a buffer, it succeeds
with the same record on that buffer extended by any extra bytes. -/
theorem bdes_trailing_tolerant (widths buf extra r : List Nat)
    (h : bdes widths buf = Except.ok r) :
    bdes widths (buf ++ extra) = Except.ok r := by
  unfold bdes at h ⊢
  cases hq : readFields widths buf with
  | none =>
    rw [hq] at h
    exact Except.noConfusion h
  | some q =>
    obtain ⟨vs, rest⟩ := q
    rw [hq] at h
    rw [readFields_extend widths buf extra vs rest hq]
    exact h

/-- Witness for C2: decoding `[8, 7, 3, 0, 0]` as `{a: u8, b: u32}` and
decoding the same buffer with `[0xFF, 0xFF, 0xFF]` appended give the same
record (spec scenarios 2 and 3). -/
theorem bdes_trailing_tolerant_witness :
    bdes [1, 4] [8, 7, 3, 0, 0] = Except.ok [8, 117637120] ∧
    bdes [1, 4] ([8, 7, 3, 0, 0] ++ [255, 255, 255])
      = Except.ok [8, 117637120] :=
  ⟨by rfl, bdes_trailing_tolerant [1, 4] [8, 7, 3, 0, 0] [255, 255, 255]
    [8, 117637120] (by rfl)⟩

/-- C3.  Fixed-width law: every field's encoding occupies exactly its
declared byte width whatever its value, so a record's encoded length is
the sum of the declared widths, independent of the field values. -/
theorem fixed_width_law (fields : List (Nat × Nat)) (w v : Nat) :
    (beBytes w v).length = w ∧
    (encodeFields fields).length = (fields.map Prod.fst).sum := by
  refine ⟨beBytes_length w v, ?_⟩
  induction fields with
  | nil => rfl
  | cons p fs ih =>
    obtain ⟨w2, v2⟩ := p
    simp [encodeFields, beBytes_length, ih]

/-- C4.  Big-endian law: for a multi-byte field, the first encoded byte is
the most significant byte of the value, and `readField` interprets the
bytes the same way, recovering the value from its encoding. -/
theorem big_endian_law (w v : Nat) (rest : List Nat)
    (h : v < 256 ^ (w + 1)) :
    (beBytes (w + 1) v).head? = some (v / 256 ^ w) ∧
    readField (w + 1) (beBytes (w + 1) v ++ rest) = some (v, rest) := by
  constructor
  · rw [beBytes_head w v]
    congr 1
    have hlt : v / 256 ^ w < 256 := by
      rw [Nat.div_lt_iff_lt_mul (Nat.pos_pow_of_pos w (by omega))]
      rw [pow_succ] at h
      omega
    exact Nat.mod_eq_of_lt hlt
  · rw [readField_beBytes, Nat.mod_eq_of_lt h]

/-- Witness for C4 at the u32 value `0x01020304`: the first byte out is
`0x01` and decoding recovers the value with the suffix untouched. -/
theorem big_endian_law_witness :
    (beBytes 4 16909060).head? = some 1 ∧
    readField 4 (beBytes 4 16909060 ++ [9]) = some (16909060, [9]) := by
  have h := big_endian_law 3 16909060 [9] (by norm_num)
  norm_num at h
  exact h

/-- C5.  Short-buffer failure: on any buffer strictly shorter than the
layout's required byte length, `bdes` returns `DeserializeError` (the
total function never panics or reads out of bounds). -/
theorem bdes_short_buffer (widths buf : List Nat)
    (h : buf.length < widths.sum) :
    bdes widths buf = Except.error DeserializeError.mk := by
  unfold bdes
  cases hq : readFields widths buf with
  | none => rfl
  | some q =>
    have hs : (readFields widths buf).isSome := by
      rw [hq]; rfl
    rw [readFields_isSome] at hs
    omega

/-- Witness for C5: a 4-byte buffer for the 5-byte layout `{u8, u32}`. -/
theorem bdes_short_buffer_witness :
    bdes [1, 4] [8, 7, 3, 0] = Except.error DeserializeError.mk :=
  bdes_short_buffer [1, 4] [8, 7, 3, 0] (by decide)

/-- C6.  Concrete scenario 1: the record `{a: u8 = 7, b: u32 = 65536}`
encodes to exactly `[7, 0, 1, 0, 0]`. -/
theorem bser_short_struct :
    bser [(1, 7), (4, 65536)] = Except.ok [7, 0, 1, 0, 0] := by
  rfl

/-- C7.  Concrete scenario 4: the keep-alive reply record encodes to
exactly 34 bytes, the concatenation of each field's fixed-width big-endian
form in declared order. -/
theorem bser_keepalive_reply :
    bser [(1, 114), (8, 0x1234), (8, 0), (8, 0), (8, 0x5678), (1, 0)]
      = Except.ok
        [114,
         0, 0, 0, 0, 0, 0, 18, 52,
         0, 0, 0, 0, 0, 0, 0, 0,
         0, 0, 0, 0, 0, 0, 0, 0,
         0, 0, 0, 0, 0, 0, 86, 120,
         0] ∧
    (encodeFields
      [(1, 114), (8, 0x1234), (8, 0), (8, 0), (8, 0x5678), (1, 0)]).length
      = 34 := by
  exact ⟨rfl, rfl⟩

/-- C8.  When the destination is too small for the full encoding,
`bser_into` returns `SerializeError`; the destination ends up holding
exactly the first `c` bytes of the encoding, so the bytes written before
the failure are kept (no rollback) and no field after the failing write is
written. -/
theorem bser_into_short_dest (fields : List (Nat × Nat)) (c : Nat)
    (h : c < (encodeFields fields).length) :
    bser_into fields ⟨[], c⟩
      = (⟨(encodeFields fields).take c, c⟩,
         Except.error SerializeError.mk) := by
  rw [bser_into_spec fields [] c (by simp)]
  rw [if_neg (by simp; omega)]
  simp

/-- Witness for C8: serializing `{a: u8 = 7, b: u32 = 65536}` into a
3-byte destination fails, leaving the first 3 encoded bytes written. -/
theorem bser_into_short_dest_witness :
    bser_into [(1, 7), (4, 65536)] ⟨[], 3⟩
      = (⟨[7, 0, 1], 3⟩, Except.error SerializeError.mk) := by
  have h := bser_into_short_dest [(1, 7), (4, 65536)] 3 (by decide)
  simpa using h

/-- C9.  Determinism: `bser` and `bdes` are pure functions of their
arguments, so equal records serialize to identical byte sequences and
equal buffers deserialize to identical results. -/
theorem codec_deterministic (f1 f2 : List (Nat × Nat))
    (ws b1 b2 : List Nat) (hf : f1 = f2) (hb : b1 = b2) :
    bser f1 = bser f2 ∧ bdes ws b1 = bdes ws b2 := by
  subst hf
  subst hb
  exact ⟨rfl, rfl⟩

/-- Witness for C9 at concrete inputs. -/
theorem codec_deterministic_witness :
    bser [(1, 7)] = bser [(1, 7)] ∧ bdes [1] [5] = bdes [1] [5] :=
  codec_deterministic [(1, 7)] [(1, 7)] [1] [5] [5] rfl rfl

/-- C10.  For layouts whose fields are unconstrained integers (all of
them, in this codec), `bdes` fails exactly when the buffer is shorter
than the layout's required length: every long-enough buffer decodes. -/
theorem bdes_fails_iff_short (widths buf : List Nat) :
    bdes widths buf = Except.error DeserializeError.mk
      ↔ buf.length < widths.sum := by
  have hs := readFields_isSome widths buf
  unfold bdes
  cases hq : readFields widths buf with
  | none =>
    rw [hq] at hs
    simp only [Option.isSome_none, Bool.false_eq_true, false_iff,
      not_le] at hs
    exact ⟨fun _ => hs, fun _ => rfl⟩
  | some q =>
    obtain ⟨vs, rest⟩ := q
    rw [hq] at hs
    simp only [Option.isSome_some, true_iff] at hs
    constructor
    · intro hcontra
      exact Except.noConfusion hcontra
    · intro hlen
      omega

end BinSerde
